import Mathlib

/-!
Verification development for the neurosecure-africa repository.

The encryption-at-rest module (`security.py`) is embedded as follows:
byte sequences are lists of naturals; the AES block primitive is an
abstract `BlockCipher` (a keyed pair of block maps), since the theorems
about the module depend only on the block maps being mutually inverse,
length-preserving maps on 16-byte blocks; CBC chaining, PKCS#7 padding
and unpadding, the IV-prepended envelope, and the exception-swallowing
fallbacks of `encrypt_data` / `decrypt_data` are embedded concretely
from the source.  The random IV drawn by `get_random_bytes` inside
`encrypt_data` is made an explicit argument.

The preprocessing module (`preprocessing.py`) and the risk classifier
(`ai_analysis.py`) are embedded over exact rationals in place of IEEE
floats; `np.std`, whose value is irrational in general, is passed as an
explicit argument pinned by the hypothesis that it is the nonnegative
square root of the population variance.
-/

namespace NeuroSecure

/-- Byte sequences (Python `bytes`); each entry is one byte. -/
abbrev Bytes := List Nat

/-- Block size of AES, `AES.block_size` in the source. -/
def BLOCK_SIZE : Nat := 16

/-- Key size for AES-256, `KEY_SIZE` in the source. -/
def KEY_SIZE : Nat := 32

/-- Abstract model of the AES block primitive: a keyed block map and a
keyed inverse block map.  The theorems assume (where needed) that `enc`
preserves 16-byte blocks and that `dec` inverts `enc` on them, which is
all that matters for the CBC-level properties of `security.py`. -/
structure BlockCipher where
  enc : Bytes → Bytes → Bytes
  dec : Bytes → Bytes → Bytes

/-- Key lengths accepted by `AES.new` (AES-128/192/256).  A key of any
other length makes `AES.new` raise `ValueError`. -/
def validKeyLength (key : Bytes) : Bool :=
  key.length == 16 || key.length == 24 || key.length == 32

/-- PKCS#7 padding, `Crypto.Util.Padding.pad(data, 16)`: append
`16 - len(data) % 16` copies of that very count (always between 1 and
16 inclusive). -/
def pad (data : Bytes) : Bytes :=
  let padLen := BLOCK_SIZE - data.length % BLOCK_SIZE
  data ++ List.replicate padLen padLen

/-- PKCS#7 unpadding, `Crypto.Util.Padding.unpad(data, 16)`: rejects
empty input, input whose length is not a multiple of 16, a pad count
outside `1 .. min 16 n`, and a tail that is not `padLen` copies of
`padLen`; `none` models the `ValueError` the library raises. -/
def unpad (padded : Bytes) : Option Bytes :=
  let n := padded.length
  if n = 0 then none
  else if n % BLOCK_SIZE ≠ 0 then none
  else
    let padLen := padded.getLastD 0
    if padLen < 1 ∨ min BLOCK_SIZE n < padLen then none
    else if padded.drop (n - padLen) = List.replicate padLen padLen then
      some (padded.take (n - padLen))
    else none

/-- Bytewise XOR of two equal-length byte strings (the block-combining
step of CBC mode). -/
def xorBytes (a b : Bytes) : Bytes :=
  List.zipWith Nat.xor a b

/-- Fuel-indexed splitting of a byte string into 16-byte chunks; the
fuel (always instantiated with the length) keeps the recursion
structural so that terms evaluate by `rfl`/`decide`. -/
def toBlocksF : Nat → Bytes → List Bytes
  | 0, _ => []
  | _ + 1, [] => []
  | fuel + 1, a :: l =>
      (a :: l).take BLOCK_SIZE :: toBlocksF fuel ((a :: l).drop BLOCK_SIZE)

/-- Split a byte string into consecutive 16-byte blocks (the block
iteration inside the CBC cipher object). -/
def toBlocks (l : Bytes) : List Bytes :=
  toBlocksF l.length l

/-- CBC encryption over a list of plaintext blocks: each block is XORed
with the previous ciphertext block (initially the IV) and then put
through the block map. -/
def cbcEnc (enc : Bytes → Bytes) : Bytes → List Bytes → List Bytes
  | _, [] => []
  | prev, b :: rest =>
      let c := enc (xorBytes prev b)
      c :: cbcEnc enc c rest

/-- CBC decryption over a list of ciphertext blocks: each block is put
through the inverse block map and XORed with the previous ciphertext
block (initially the IV). -/
def cbcDec (dec : Bytes → Bytes) : Bytes → List Bytes → List Bytes
  | _, [] => []
  | prev, c :: rest => xorBytes prev (dec c) :: cbcDec dec c rest

/-- Embedding of `encrypt_data(data, key)` from `src/security.py`, with
the random IV made an explicit argument.  With a key `AES.new` accepts,
it returns the IV followed by the CBC encryption of the PKCS#7-padded
data; with any other key `AES.new` raises, the bare `except` catches,
and the function falls back to returning the plaintext unchanged
(the source comment itself calls this "Fallback, but dangerous"). -/
def encrypt_data (C : BlockCipher) (data key iv : Bytes) : Bytes :=
  if validKeyLength key then
    iv ++ (cbcEnc (C.enc key) iv (toBlocks (pad data))).flatten
  else
    data

/-- Embedding of `decrypt_data(encrypted_data, key)` from
`src/security.py`.  The first 16 bytes are taken as IV and the rest as
ciphertext; `AES.new` raises when the key length is invalid or the IV
slice is shorter than 16 bytes, `cipher.decrypt` raises when the
ciphertext length is not a multiple of 16, and `unpad` raises on
malformed padding — in every such case the bare `except` catches and
the function returns the empty byte string. -/
def decrypt_data (C : BlockCipher) (encrypted_data key : Bytes) : Bytes :=
  let iv := encrypted_data.take BLOCK_SIZE
  let ciphertext := encrypted_data.drop BLOCK_SIZE
  if validKeyLength key ∧ iv.length = BLOCK_SIZE ∧ ciphertext.length % BLOCK_SIZE = 0 then
    match unpad ((cbcDec (C.dec key) iv (toBlocks ciphertext)).flatten) with
    | some plaintext => plaintext
    | none => []
  else
    []

/-- UTF-8 encoding of a string, `data_to_save.encode("utf-8")`; the
byte list underlying `String.toUTF8` (which is exactly
`s.data.flatMap String.utf8EncodeChar`). -/
def utf8Encode (s : String) : Bytes :=
  (s.data.flatMap String.utf8EncodeChar).map (fun b => b.toNat)

/-- Local file store: maps a path to the bytes stored there, if any. -/
abbrev FileStore := String → Option Bytes

/-- Embedding of `secure_local_save(data_to_save, filepath, key)` from
`src/security.py`: UTF-8-encode the string, call `encrypt_data`, and
write whatever it returns to `filepath` (creating or overwriting the
file).  The write is unconditional because `encrypt_data` never raises:
on a bad key it returns the plaintext, which is then written out. -/
def secure_local_save (C : BlockCipher) (data_to_save : String)
    (filepath : String) (key iv : Bytes) (fs : FileStore) : FileStore :=
  fun p =>
    if p = filepath then some (encrypt_data C (utf8Encode data_to_save) key iv)
    else fs p

/-- A concrete block cipher used by witnesses: both block maps are the
identity, which is length-preserving and self-inverse. -/
def trivialCipher : BlockCipher :=
  { enc := fun _ b => b, dec := fun _ b => b }

/-- A concrete 32-byte key for witnesses. -/
def key32 : Bytes := List.replicate 32 7

/-- A concrete 16-byte IV for witnesses. -/
def iv16 : Bytes := List.replicate 16 3

/-- An empty file store for witnesses. -/
def emptyFs : FileStore := fun _ => none

/-- XOR of equal-length byte strings preserves the length. -/
lemma xorBytes_length (a b : Bytes) (h : a.length = b.length) :
    (xorBytes a b).length = a.length := by
  simp [xorBytes, List.length_zipWith, h]

/-- Cancellation of `Nat.xor`, stated on the bare function so that it
rewrites inside `List.zipWith Nat.xor`. -/
lemma nat_xor_cancel (x y : Nat) : Nat.xor x (Nat.xor x y) = y :=
  Nat.xor_cancel_left x y

/-- XOR with a fixed equal-length mask is self-inverse, bytewise. -/
lemma xorBytes_cancel : ∀ (a b : Bytes), a.length = b.length →
    xorBytes a (xorBytes a b) = b := by
  intro a
  induction a with
  | nil =>
      intro b h
      have : b = [] := List.eq_nil_of_length_eq_zero h.symm
      simp [this, xorBytes]
  | cons x xs ih =>
      intro b h
      cases b with
      | nil => simp at h
      | cons y ys =>
          simp only [xorBytes, List.zipWith_cons_cons, nat_xor_cancel,
            List.cons.injEq, true_and]
          have := ih ys (by simpa using h)
          simpa [xorBytes] using this

/-- Splitting the empty byte string yields no blocks, whatever the fuel. -/
lemma toBlocksF_nil (fuel : Nat) : toBlocksF fuel [] = [] := by
  cases fuel <;> rfl

/-- Unfolding of `toBlocksF` on a nonempty byte string. -/
lemma toBlocksF_cons_eq (fuel : Nat) (l : Bytes) (h : l ≠ []) :
    toBlocksF (fuel + 1) l =
      l.take BLOCK_SIZE :: toBlocksF fuel (l.drop BLOCK_SIZE) := by
  cases l with
  | nil => exact absurd rfl h
  | cons a l => rfl

/-- Concatenating the chunks recovers the original byte string. -/
lemma toBlocksF_flatten : ∀ (fuel : Nat) (l : Bytes), l.length ≤ fuel →
    (toBlocksF fuel l).flatten = l := by
  intro fuel
  induction fuel with
  | zero =>
      intro l h
      have : l = [] := List.eq_nil_of_length_eq_zero (Nat.le_zero.mp h)
      simp [this, toBlocksF]
  | succ n ih =>
      intro l h
      cases l with
      | nil => rfl
      | cons a l' =>
          have hB : 1 ≤ BLOCK_SIZE := by norm_num [BLOCK_SIZE]
          have hle : ((a :: l').drop BLOCK_SIZE).length ≤ n := by
            simp only [List.length_drop, List.length_cons]
            simp only [List.length_cons] at h
            omega
          rw [toBlocksF_cons_eq n _ (by simp), List.flatten_cons, ih _ hle]
          exact List.take_append_drop _ _

/-- On input of block-aligned length, every chunk has exactly 16 bytes. -/
lemma toBlocksF_block_length : ∀ (fuel : Nat) (l : Bytes), l.length ≤ fuel →
    l.length % BLOCK_SIZE = 0 → ∀ b ∈ toBlocksF fuel l, b.length = BLOCK_SIZE := by
  intro fuel
  induction fuel with
  | zero =>
      intro l h _ b hb
      have : l = [] := List.eq_nil_of_length_eq_zero (Nat.le_zero.mp h)
      subst this
      simp [toBlocksF] at hb
  | succ n ih =>
      intro l h hmod b hb
      cases l with
      | nil => simp [toBlocksF] at hb
      | cons a l' =>
          have hge : BLOCK_SIZE ≤ (a :: l').length := by
            rw [BLOCK_SIZE] at hmod ⊢
            simp only [List.length_cons] at hmod ⊢
            omega
          rw [toBlocksF_cons_eq n _ (by simp)] at hb
          rcases List.mem_cons.mp hb with h1 | h1
          · subst h1
            simp only [List.length_take]
            exact Nat.min_eq_left hge
          · refine ih _ ?_ ?_ b h1
            · simp only [List.length_drop, List.length_cons]
              simp only [List.length_cons] at h
              have hB : 1 ≤ BLOCK_SIZE := by norm_num [BLOCK_SIZE]
              omega
            · simp only [List.length_drop]
              rw [BLOCK_SIZE] at hmod hge ⊢
              omega

/-- Block-splitting, then concatenating, is the identity. -/
lemma toBlocks_flatten (l : Bytes) : (toBlocks l).flatten = l :=
  toBlocksF_flatten l.length l le_rfl

/-- All blocks of a block-aligned byte string have exactly 16 bytes. -/
lemma toBlocks_block_length (l : Bytes) (h : l.length % BLOCK_SIZE = 0) :
    ∀ b ∈ toBlocks l, b.length = BLOCK_SIZE :=
  toBlocksF_block_length l.length l le_rfl h

/-- Concatenating a list of 16-byte blocks, then block-splitting,
recovers the block list. -/
lemma toBlocksF_flatten_blocks : ∀ (bs : List Bytes) (fuel : Nat),
    (∀ b ∈ bs, b.length = BLOCK_SIZE) → bs.flatten.length ≤ fuel →
    toBlocksF fuel bs.flatten = bs := by
  intro bs
  induction bs with
  | nil => intro fuel _ _; simp [toBlocksF_nil]
  | cons b rest ih =>
      intro fuel hlen hfuel
      have hb : b.length = BLOCK_SIZE := hlen b (by simp)
      have hbne : b ≠ [] := by
        intro h
        rw [h] at hb
        simp [BLOCK_SIZE] at hb
      cases fuel with
      | zero =>
          exfalso
          simp only [List.flatten_cons, List.length_append, Nat.le_zero] at hfuel
          rw [BLOCK_SIZE] at hb
          omega
      | succ n =>
          rw [List.flatten_cons, toBlocksF_cons_eq n _ (by simp [hbne]),
            ← hb, List.take_left, List.drop_left]
          refine congrArg _ (ih n (fun x hx => hlen x (by simp [hx])) ?_)
          simp only [List.flatten_cons, List.length_append] at hfuel
          rw [BLOCK_SIZE] at hb
          omega

/-- Variant of `toBlocksF_flatten_blocks` with the fuel instantiated. -/
lemma toBlocks_flatten_blocks (bs : List Bytes)
    (h : ∀ b ∈ bs, b.length = BLOCK_SIZE) : toBlocks bs.flatten = bs :=
  toBlocksF_flatten_blocks bs bs.flatten.length h le_rfl

/-- The concatenation of a list of 16-byte blocks has length
`16 * number of blocks`. -/
lemma flatten_length_blocks : ∀ (bs : List Bytes),
    (∀ b ∈ bs, b.length = BLOCK_SIZE) →
    bs.flatten.length = BLOCK_SIZE * bs.length := by
  intro bs
  induction bs with
  | nil => simp
  | cons b rest ih =>
      intro h
      simp only [List.flatten_cons, List.length_append, List.length_cons,
        h b (by simp), ih (fun x hx => h x (by simp [hx]))]
      ring

/-- CBC encryption produces as many ciphertext blocks as plaintext
blocks. -/
lemma cbcEnc_length (enc : Bytes → Bytes) : ∀ (bs : List Bytes) (prev : Bytes),
    (cbcEnc enc prev bs).length = bs.length := by
  intro bs
  induction bs with
  | nil => intro prev; rfl
  | cons b rest ih => intro prev; simp [cbcEnc, ih]

/-- When the block map preserves 16-byte blocks, so does CBC encryption,
blockwise. -/
lemma cbcEnc_block_length (enc : Bytes → Bytes)
    (henc : ∀ b, b.length = BLOCK_SIZE → (enc b).length = BLOCK_SIZE) :
    ∀ (bs : List Bytes) (prev : Bytes), prev.length = BLOCK_SIZE →
    (∀ b ∈ bs, b.length = BLOCK_SIZE) →
    ∀ c ∈ cbcEnc enc prev bs, c.length = BLOCK_SIZE := by
  intro bs
  induction bs with
  | nil => intro prev _ _ c hc; simp [cbcEnc] at hc
  | cons b rest ih =>
      intro prev hprev hbs c hc
      have hb : b.length = BLOCK_SIZE := hbs b (by simp)
      have hxor : (xorBytes prev b).length = BLOCK_SIZE := by
        rw [xorBytes_length prev b (by rw [hprev, hb]), hprev]
      have hcb : (enc (xorBytes prev b)).length = BLOCK_SIZE := henc _ hxor
      simp only [cbcEnc, List.mem_cons] at hc
      rcases hc with h1 | h1
      · rw [h1]; exact hcb
      · exact ih _ hcb (fun x hx => hbs x (by simp [hx])) c h1

/-- CBC decryption inverts CBC encryption when the block maps are
mutually inverse, length-preserving maps on 16-byte blocks. -/
lemma cbcDec_cbcEnc (enc dec : Bytes → Bytes)
    (henc : ∀ b, b.length = BLOCK_SIZE → (enc b).length = BLOCK_SIZE)
    (hinv : ∀ b, b.length = BLOCK_SIZE → dec (enc b) = b) :
    ∀ (bs : List Bytes) (prev : Bytes), prev.length = BLOCK_SIZE →
    (∀ b ∈ bs, b.length = BLOCK_SIZE) →
    cbcDec dec prev (cbcEnc enc prev bs) = bs := by
  intro bs
  induction bs with
  | nil => intro prev _ _; rfl
  | cons b rest ih =>
      intro prev hprev hbs
      have hb : b.length = BLOCK_SIZE := hbs b (by simp)
      have hxor : (xorBytes prev b).length = BLOCK_SIZE := by
        rw [xorBytes_length prev b (by rw [hprev, hb]), hprev]
      simp only [cbcEnc, cbcDec]
      rw [hinv _ hxor, xorBytes_cancel prev b (by rw [hprev, hb])]
      exact congrArg _ (ih _ (henc _ hxor) (fun x hx => hbs x (by simp [hx])))

/-- Length of the PKCS#7-padded data. -/
lemma pad_length (data : Bytes) :
    (pad data).length = data.length + (BLOCK_SIZE - data.length % BLOCK_SIZE) := by
  simp [pad]

/-- PKCS#7 padding always produces a block-aligned byte string. -/
lemma pad_length_mod (data : Bytes) : (pad data).length % BLOCK_SIZE = 0 := by
  rw [pad_length, BLOCK_SIZE]
  omega

/-- Padded data is nonempty. -/
lemma pad_ne_nil (data : Bytes) : pad data ≠ [] := by
  intro h
  have := congrArg List.length h
  rw [pad_length, BLOCK_SIZE] at this
  simp at this
  omega

/-- Unpadding inverts PKCS#7 padding exactly. -/
lemma unpad_pad (data : Bytes) : unpad (pad data) = some data := by
  have hmod : data.length % BLOCK_SIZE < BLOCK_SIZE :=
    Nat.mod_lt _ (by norm_num [BLOCK_SIZE])
  have h1 : 1 ≤ BLOCK_SIZE - data.length % BLOCK_SIZE := by omega
  have h2 : BLOCK_SIZE - data.length % BLOCK_SIZE ≤ BLOCK_SIZE := by omega
  obtain ⟨k, hk⟩ : ∃ k, BLOCK_SIZE - data.length % BLOCK_SIZE = k + 1 :=
    ⟨BLOCK_SIZE - data.length % BLOCK_SIZE - 1, by omega⟩
  have hlast : (pad data).getLastD 0 = BLOCK_SIZE - data.length % BLOCK_SIZE := by
    rw [pad]
    rw [hk, List.replicate_succ', ← List.append_assoc, List.getLastD_concat]
  have hlen := pad_length data
  rw [unpad]
  simp only [hlast, hlen]
  rw [if_neg (by rw [BLOCK_SIZE] at hmod ⊢; omega),
    if_neg (by rw [BLOCK_SIZE] at hmod ⊢; simp; omega),
    if_neg (by rw [BLOCK_SIZE] at hmod ⊢; omega)]
  have hdrop : data.length + (BLOCK_SIZE - data.length % BLOCK_SIZE) -
      (BLOCK_SIZE - data.length % BLOCK_SIZE) = data.length := by omega
  rw [hdrop]
  have hdl : (pad data).drop data.length =
      List.replicate (BLOCK_SIZE - data.length % BLOCK_SIZE)
        (BLOCK_SIZE - data.length % BLOCK_SIZE) := by
    rw [pad]
    exact List.drop_left data _
  have htl : (pad data).take data.length = data := by
    rw [pad]
    exact List.take_left data _
  rw [if_pos hdl, htl]

/-- Core round-trip fact of `security.py`: with a 32-byte key, a 16-byte
IV, and block maps that are mutually inverse and length-preserving on
16-byte blocks, `decrypt_data` recovers from `encrypt_data`'s envelope
exactly the original plaintext.  Shared by the round-trip and
persistence theorems. -/
lemma decrypt_encrypt_aux (C : BlockCipher) (p key iv : Bytes)
    (henc : ∀ b, b.length = BLOCK_SIZE → (C.enc key b).length = BLOCK_SIZE)
    (hinv : ∀ b, b.length = BLOCK_SIZE → C.dec key (C.enc key b) = b)
    (hkey : key.length = KEY_SIZE) (hiv : iv.length = BLOCK_SIZE) :
    decrypt_data C (encrypt_data C p key iv) key = p := by
  have hvalid : validKeyLength key = true := by
    simp [validKeyLength, hkey, KEY_SIZE]
  have hblocks : ∀ b ∈ toBlocks (pad p), b.length = BLOCK_SIZE :=
    toBlocks_block_length _ (pad_length_mod p)
  have hcblocks : ∀ c ∈ cbcEnc (C.enc key) iv (toBlocks (pad p)),
      c.length = BLOCK_SIZE :=
    cbcEnc_block_length (C.enc key) henc _ iv hiv hblocks
  have hctlen : (cbcEnc (C.enc key) iv (toBlocks (pad p))).flatten.length
      = BLOCK_SIZE * (cbcEnc (C.enc key) iv (toBlocks (pad p))).length :=
    flatten_length_blocks _ hcblocks
  rw [encrypt_data, if_pos hvalid, decrypt_data]
  rw [← hiv, List.take_left, List.drop_left, hiv]
  rw [if_pos ⟨hvalid, rfl, by rw [hctlen]; simp⟩]
  rw [toBlocks_flatten_blocks _ hcblocks,
    cbcDec_cbcEnc (C.enc key) (C.dec key) henc hinv _ iv hiv hblocks,
    toBlocks_flatten, unpad_pad]

/-- Envelope length produced by a successful `encrypt_data` call:
16 IV bytes plus the padded length. -/
lemma encrypt_length_aux (C : BlockCipher) (p key iv : Bytes)
    (henc : ∀ b, b.length = BLOCK_SIZE → (C.enc key b).length = BLOCK_SIZE)
    (hkey : key.length = KEY_SIZE) (hiv : iv.length = BLOCK_SIZE) :
    (encrypt_data C p key iv).length = BLOCK_SIZE + (pad p).length := by
  have hvalid : validKeyLength key = true := by
    simp [validKeyLength, hkey, KEY_SIZE]
  have hblocks : ∀ b ∈ toBlocks (pad p), b.length = BLOCK_SIZE :=
    toBlocks_block_length _ (pad_length_mod p)
  have hcblocks : ∀ c ∈ cbcEnc (C.enc key) iv (toBlocks (pad p)),
      c.length = BLOCK_SIZE :=
    cbcEnc_block_length (C.enc key) henc _ iv hiv hblocks
  rw [encrypt_data, if_pos hvalid]
  rw [List.length_append, hiv, flatten_length_blocks _ hcblocks,
    cbcEnc_length, ← flatten_length_blocks _ hblocks, toBlocks_flatten]

/-- Claim C1: for every byte sequence `p` (including the empty sequence
and sequences whose length is not a multiple of 16) and every 32-byte
key `k`, decrypting the result of encrypting `p` under `k` with the
same key returns exactly `p` — for any 16-byte IV draw, with the AES
block maps mutually inverse and length-preserving on 16-byte blocks. -/
theorem C1_encrypt_decrypt_roundtrip (C : BlockCipher) (p key iv : Bytes)
    (henc : ∀ b, b.length = BLOCK_SIZE → (C.enc key b).length = BLOCK_SIZE)
    (hinv : ∀ b, b.length = BLOCK_SIZE → C.dec key (C.enc key b) = b)
    (hkey : key.length = KEY_SIZE) (hiv : iv.length = BLOCK_SIZE) :
    decrypt_data C (encrypt_data C p key iv) key = p :=
  decrypt_encrypt_aux C p key iv henc hinv hkey hiv

/-- Witness for C1: the round trip evaluated at a concrete cipher,
plaintext, key and IV. -/
theorem C1_encrypt_decrypt_roundtrip_witness :
    key32.length = KEY_SIZE ∧ iv16.length = BLOCK_SIZE ∧
    decrypt_data trivialCipher (encrypt_data trivialCipher [1, 2, 3] key32 iv16)
      key32 = [1, 2, 3] :=
  ⟨by decide, by decide,
    C1_encrypt_decrypt_roundtrip trivialCipher [1, 2, 3] key32 iv16
      (fun b h => h) (fun b h => rfl) (by decide) (by decide)⟩

/-- Claim C2, code behavior at the failing input: called with a key of
invalid length (5 bytes), `encrypt_data` catches the `ValueError` from
`AES.new` and returns the original plaintext unchanged — not an
`InvalidKeyError` — and `decrypt_data` likewise returns the empty byte
string instead of failing. -/
theorem C2_invalid_key_fallback_to_plaintext :
    encrypt_data trivialCipher [9, 8, 7] (List.replicate 5 1) iv16 = [9, 8, 7]
    ∧ decrypt_data trivialCipher (List.replicate 32 2) (List.replicate 5 1) = [] := by
  decide

/-- Claim C3, code behavior at the failing inputs: with a 32-byte key,
`decrypt_data` returns the empty byte string — the sentinel the claim
forbids, not a `DecryptionError` — on an empty envelope, an envelope
shorter than the 16-byte IV, a ciphertext whose length is not a
multiple of 16, and malformed PKCS#7 padding after decryption. -/
theorem C3_decrypt_failure_returns_empty :
    decrypt_data trivialCipher [] key32 = []
    ∧ decrypt_data trivialCipher (List.replicate 15 1) key32 = []
    ∧ decrypt_data trivialCipher (List.replicate 17 1) key32 = []
    ∧ decrypt_data trivialCipher (List.replicate 32 0) key32 = [] := by
  decide

/-- Claim C4, code behavior at the failing input: `secure_local_save`
with a key of invalid length (5 bytes) does not fail before the file
write; it writes the raw UTF-8 plaintext (here `"hi"`, bytes
`[104, 105]`) to the given filepath. -/
theorem C4_invalid_key_writes_plaintext :
    secure_local_save trivialCipher "hi" "report.enc" (List.replicate 5 1) iv16
      emptyFs "report.enc" = some (utf8Encode "hi")
    ∧ utf8Encode "hi" = [104, 105] := by
  decide

/-- Claim C5: for every plaintext `p` of length `n` and every 32-byte
key, `encrypt_data` returns an envelope of length exactly
`16 + 16 * ceil((n+1)/16)` (a 16-byte IV plus the padded ciphertext);
hence every envelope is at least 16 bytes long and its length minus 16
is a multiple of 16. -/
theorem C5_envelope_shape (C : BlockCipher) (p key iv : Bytes)
    (henc : ∀ b, b.length = BLOCK_SIZE → (C.enc key b).length = BLOCK_SIZE)
    (hkey : key.length = KEY_SIZE) (hiv : iv.length = BLOCK_SIZE) :
    (encrypt_data C p key iv).length = 16 + 16 * ((p.length + 1 + 15) / 16)
    ∧ 16 ≤ (encrypt_data C p key iv).length
    ∧ ((encrypt_data C p key iv).length - 16) % 16 = 0 := by
  have h := encrypt_length_aux C p key iv henc hkey hiv
  rw [pad_length, BLOCK_SIZE] at h
  refine ⟨?_, ?_, ?_⟩ <;> rw [h] <;> omega

/-- Witness for C5 at a 3-byte plaintext: the envelope has
`16 + 16 * 1 = 32` bytes. -/
theorem C5_envelope_shape_witness :
    key32.length = KEY_SIZE ∧
    (encrypt_data trivialCipher [1, 2, 3] key32 iv16).length
      = 16 + 16 * (([1, 2, 3].length + 1 + 15) / 16) :=
  ⟨by decide,
    (C5_envelope_shape trivialCipher [1, 2, 3] key32 iv16
      (fun b h => h) (by decide) (by decide)).1⟩

/-- Claim C6: for every 32-byte key and every string `s`,
`secure_local_save` stores the encryption envelope of the UTF-8
encoding of `s` at `filepath` — overwriting whatever any prior file
store `fs` held there — and decrypting the stored bytes with the same
key yields exactly the UTF-8 encoding of `s`. -/
theorem C6_secure_local_save_persistence (C : BlockCipher)
    (s filepath : String) (key iv : Bytes) (fs : FileStore)
    (henc : ∀ b, b.length = BLOCK_SIZE → (C.enc key b).length = BLOCK_SIZE)
    (hinv : ∀ b, b.length = BLOCK_SIZE → C.dec key (C.enc key b) = b)
    (hkey : key.length = KEY_SIZE) (hiv : iv.length = BLOCK_SIZE) :
    secure_local_save C s filepath key iv fs filepath
      = some (encrypt_data C (utf8Encode s) key iv)
    ∧ decrypt_data C (encrypt_data C (utf8Encode s) key iv) key = utf8Encode s :=
  ⟨by simp [secure_local_save],
    decrypt_encrypt_aux C (utf8Encode s) key iv henc hinv hkey hiv⟩

/-- Witness for C6: saving `"hello world"` over a file store that
already holds bytes at the path, then decrypting what was stored,
recovers the UTF-8 encoding of `"hello world"`. -/
theorem C6_secure_local_save_persistence_witness :
    key32.length = KEY_SIZE ∧
    (secure_local_save trivialCipher "hello world" "x.enc" key32 iv16
        (fun _ => some [0]) "x.enc"
      = some (encrypt_data trivialCipher (utf8Encode "hello world") key32 iv16)
    ∧ decrypt_data trivialCipher
        (encrypt_data trivialCipher (utf8Encode "hello world") key32 iv16) key32
      = utf8Encode "hello world") :=
  ⟨by decide,
    C6_secure_local_save_persistence trivialCipher "hello world" "x.enc"
      key32 iv16 (fun _ => some [0]) (fun b h => h) (fun b h => rfl)
      (by decide) (by decide)⟩

/-- Claim C7: for any two distinct 16-byte IV draws, encrypting the
same plaintext under the same 32-byte key produces different envelopes
(the deterministic core of IV uniqueness: the envelope embeds the IV in
its first 16 bytes). -/
theorem C7_distinct_iv_distinct_envelope (C : BlockCipher)
    (p key iv₁ iv₂ : Bytes) (h1 : iv₁.length = BLOCK_SIZE)
    (h2 : iv₂.length = BLOCK_SIZE) (hkey : key.length = KEY_SIZE)
    (hne : iv₁ ≠ iv₂) :
    encrypt_data C p key iv₁ ≠ encrypt_data C p key iv₂ := by
  have hvalid : validKeyLength key = true := by
    simp [validKeyLength, hkey, KEY_SIZE]
  intro heq
  rw [encrypt_data, if_pos hvalid, encrypt_data, if_pos hvalid] at heq
  have htake := congrArg (List.take BLOCK_SIZE) heq
  rw [List.take_left' h1, List.take_left' h2] at htake
  exact hne htake

/-- Witness for C7: two concrete distinct IVs yield distinct envelopes
for the same plaintext and key. -/
theorem C7_distinct_iv_distinct_envelope_witness :
    iv16 ≠ 1 :: List.replicate 15 3 ∧
    encrypt_data trivialCipher [1, 2, 3] key32 iv16
      ≠ encrypt_data trivialCipher [1, 2, 3] key32 (1 :: List.replicate 15 3) :=
  ⟨by decide,
    C7_distinct_iv_distinct_envelope trivialCipher [1, 2, 3] key32 iv16
      (1 :: List.replicate 15 3) (by decide) (by decide) (by decide) (by decide)⟩

/-- Arithmetic mean, `np.mean(data)`, over exact rationals (the empty
array, where NumPy yields NaN, maps to `0/0 = 0`; both branches of
`normalize_signals` return the empty list there, so the value of the
mean is immaterial). -/
def npMean (data : List ℚ) : ℚ :=
  data.sum / data.length

/-- Population variance, the square of `np.std(data)`, over exact
rationals. -/
def npVariance (data : List ℚ) : ℚ :=
  (data.map (fun x => (x - npMean data) ^ 2)).sum / data.length

/-- Embedding of `normalize_signals(data)` from `src/preprocessing.py`.
The intermediate `std_dev = np.std(data)` is irrational in general, so
it is passed as an explicit argument; the theorems pin it down as the
nonnegative square root of `npVariance data`.  When `std_dev < 1e-6`
the function returns the mean-centered data without dividing; otherwise
it returns `(data - mean) / std_dev`. -/
def normalize_signals (data : List ℚ) (std_dev : ℚ) : List ℚ :=
  let mean := npMean data
  if std_dev < 1 / 1000000 then data.map (fun x => x - mean)
  else data.map (fun x => (x - mean) / std_dev)

/-- Claim C8: `normalize_signals` is total and never divides by zero:
with `std_dev = np.std(data)` (the nonnegative square root of the
population variance), the output always has the input's length; below
the `1e-6` threshold the result is the mean-centered data with no
division, and otherwise the divisor `std_dev` is provably nonzero and
the result is `(data - mean) / std_dev`. -/
theorem C8_normalize_signals_total (data : List ℚ) (std_dev : ℚ)
    (h0 : 0 ≤ std_dev) (hv : std_dev ^ 2 = npVariance data) :
    (normalize_signals data std_dev).length = data.length
    ∧ (std_dev < 1 / 1000000 →
        normalize_signals data std_dev = data.map (fun x => x - npMean data))
    ∧ (¬ std_dev < 1 / 1000000 → std_dev ≠ 0
        ∧ normalize_signals data std_dev
          = data.map (fun x => (x - npMean data) / std_dev)) := by
  refine ⟨?_, ?_, ?_⟩
  · rw [normalize_signals]
    split <;> simp
  · intro h
    rw [normalize_signals, if_pos h]
  · intro h
    refine ⟨?_, by rw [normalize_signals, if_neg h]⟩
    intro hz
    rw [hz] at h
    exact h (by norm_num)

/-- Witness for C8 on the constant array `[2, 2]`, whose standard
deviation is exactly `0`: the mean-centring branch is taken. -/
theorem C8_normalize_signals_total_witness :
    ((0:ℚ) ≤ 0 ∧ (0:ℚ) ^ 2 = npVariance [2, 2]) ∧
    ((normalize_signals [2, 2] 0).length = [(2:ℚ), 2].length
    ∧ ((0:ℚ) < 1 / 1000000 →
        normalize_signals [2, 2] 0 = [(2:ℚ), 2].map (fun x => x - npMean [2, 2]))
    ∧ (¬ (0:ℚ) < 1 / 1000000 → (0:ℚ) ≠ 0
        ∧ normalize_signals [2, 2] 0
          = [(2:ℚ), 2].map (fun x => (x - npMean [2, 2]) / 0))) :=
  ⟨⟨le_refl 0, by norm_num [npVariance, npMean]⟩,
    C8_normalize_signals_total [2, 2] 0 (le_refl 0)
      (by norm_num [npVariance, npMean])⟩

/-- Result of `segment_sleep_cycles`: the dictionary with keys `rem`
and `non_rem`. -/
structure Segmented where
  rem : List ℚ
  non_rem : List ℚ

/-- Embedding of `segment_sleep_cycles(normalized_data,
sleep_stage_markers)` from `src/preprocessing.py`: `np.where` produces
the (increasing) index lists of markers equal to 4 and of markers below
4, and NumPy fancy indexing maps those indices over the data; when an
index list is empty the source substitutes an empty array, which
coincides with indexing by the empty list. -/
def segment_sleep_cycles (normalized_data : List ℚ)
    (sleep_stage_markers : List ℤ) : Segmented :=
  let rem_indices := (List.range sleep_stage_markers.length).filter
    (fun i => sleep_stage_markers.getD i 0 == 4)
  let non_rem_indices := (List.range sleep_stage_markers.length).filter
    (fun i => decide (sleep_stage_markers.getD i 0 < 4))
  { rem := if 0 < rem_indices.length then
        rem_indices.map (fun i => normalized_data.getD i 0)
      else []
    non_rem := if 0 < non_rem_indices.length then
        non_rem_indices.map (fun i => normalized_data.getD i 0)
      else [] }

/-- Indexing branch of the source collapses: mapping over an index list
equals the guarded form with the empty-array substitute. -/
lemma if_length_map {α β : Type} (l : List α) (f : α → β) :
    (if 0 < l.length then l.map f else []) = l.map f := by
  cases l <;> simp

/-- Selecting by filtered indices over `range` equals filtering the
zipped (value, marker) pairs by the marker predicate and keeping the
values — the order-preserving characterization of the segmentation. -/
lemma map_getD_filter_range (f : ℤ → Bool) : ∀ (data : List ℚ) (markers : List ℤ),
    data.length = markers.length →
    ((List.range markers.length).filter (fun i => f (markers.getD i 0))).map
        (fun i => data.getD i 0)
      = ((data.zip markers).filter (fun p => f p.2)).map Prod.fst := by
  intro data
  induction data with
  | nil =>
      intro markers h
      have : markers = [] := List.eq_nil_of_length_eq_zero (h.symm ▸ rfl)
      simp [this]
  | cons d ds ih =>
      intro markers h
      cases markers with
      | nil => simp at h
      | cons m ms =>
          have h' : ds.length = ms.length := by simpa using h
          have key := ih ms h'
          rw [List.length_cons, List.range_succ_eq_map, List.filter_cons]
          by_cases hm : f m = true
          · simp only [List.getD_cons_zero, hm, if_true, List.map_cons,
              List.filter_map, List.map_map, List.zip_cons_cons]
            simp only [Function.comp_def, List.getD_cons_succ, List.getD_cons_zero]
            rw [List.filter_cons, hm, if_pos rfl, List.map_cons]
            simp only [key]
          · simp only [List.getD_cons_zero, hm, if_false, Bool.false_eq_true,
              List.filter_map, List.map_map, List.zip_cons_cons]
            simp only [Function.comp_def, List.getD_cons_succ]
            rw [List.filter_cons]
            simp only [hm, Bool.false_eq_true, if_false]
            exact key

/-- The REM filter (marker = 4) and the non-REM filter (marker < 4)
select disjoint sets of pairs, and together they exhaust the list
exactly when every marker is at most 4. -/
lemma rem_nonrem_count : ∀ (l : List (ℚ × ℤ)),
    ((l.filter (fun p => p.2 == 4)).length
      + (l.filter (fun p => decide (p.2 < 4))).length ≤ l.length)
    ∧ ((l.filter (fun p => p.2 == 4)).length
        + (l.filter (fun p => decide (p.2 < 4))).length = l.length
        ↔ ∀ p ∈ l, p.2 ≤ 4) := by
  intro l
  induction l with
  | nil => simp
  | cons a l ih =>
      obtain ⟨ihle, ihiff⟩ := ih
      rcases lt_trichotomy a.2 4 with hc | hc | hc
      · have hb1 : (a.2 == 4) = false := by simp [hc.ne]
        have hb2 : decide (a.2 < 4) = true := by simp [hc]
        simp only [List.filter_cons, hb1, hb2, Bool.false_eq_true, if_false,
          if_true, List.length_cons, List.forall_mem_cons]
        refine ⟨by omega, ?_, ?_⟩
        · intro he
          exact ⟨le_of_lt hc, ihiff.mp (by omega)⟩
        · rintro ⟨-, hall⟩
          have := ihiff.mpr hall
          omega
      · have hb1 : (a.2 == 4) = true := by simp [hc]
        have hb2 : decide (a.2 < 4) = false := by simp [hc]
        simp only [List.filter_cons, hb1, hb2, Bool.false_eq_true, if_false,
          if_true, List.length_cons, List.forall_mem_cons]
        refine ⟨by omega, ?_, ?_⟩
        · intro he
          exact ⟨le_of_eq hc, ihiff.mp (by omega)⟩
        · rintro ⟨-, hall⟩
          have := ihiff.mpr hall
          omega
      · have hb1 : (a.2 == 4) = false := by simp [hc.ne']
        have hb2 : decide (a.2 < 4) = false := by
          simp only [decide_eq_false_iff_not, not_lt]
          exact le_of_lt hc
        simp only [List.filter_cons, hb1, hb2, Bool.false_eq_true, if_false,
          List.length_cons, List.forall_mem_cons]
        refine ⟨by omega, ?_, ?_⟩
        · intro he
          exfalso
          omega
        · rintro ⟨ha, -⟩
          omega

/-- Claim C9: with data and markers of equal length, an element lands
in the `rem` segment exactly when its marker equals 4 and in the
`non_rem` segment exactly when its marker is below 4 (each segment is
the order-preserving filter of the (value, marker) pairs by its marker
predicate); the two segments partition the data — their lengths sum to
the data length — if and only if every marker is at most 4. -/
theorem C9_segment_sleep_cycles_partition (data : List ℚ) (markers : List ℤ)
    (h : data.length = markers.length) :
    (segment_sleep_cycles data markers).rem
      = ((data.zip markers).filter (fun p => p.2 == 4)).map Prod.fst
    ∧ (segment_sleep_cycles data markers).non_rem
      = ((data.zip markers).filter (fun p => decide (p.2 < 4))).map Prod.fst
    ∧ ((segment_sleep_cycles data markers).rem.length
        + (segment_sleep_cycles data markers).non_rem.length = data.length
        ↔ ∀ m ∈ markers, m ≤ 4) := by
  have hrem : (segment_sleep_cycles data markers).rem
      = ((data.zip markers).filter (fun p => p.2 == 4)).map Prod.fst := by
    rw [segment_sleep_cycles]
    exact (if_length_map _ _).trans (map_getD_filter_range (fun m => m == 4) data markers h)
  have hnon : (segment_sleep_cycles data markers).non_rem
      = ((data.zip markers).filter (fun p => decide (p.2 < 4))).map Prod.fst := by
    rw [segment_sleep_cycles]
    exact (if_length_map _ _).trans
      (map_getD_filter_range (fun m => decide (m < 4)) data markers h)
  refine ⟨hrem, hnon, ?_⟩
  rw [hrem, hnon, List.length_map, List.length_map]
  have hcount := (rem_nonrem_count (data.zip markers)).2
  have hzlen : (data.zip markers).length = data.length := by
    rw [List.length_zip]
    omega
  rw [hzlen] at hcount
  refine hcount.trans ?_
  have hms : (data.zip markers).map Prod.snd = markers :=
    List.map_snd_zip data markers (le_of_eq h.symm)
  constructor
  · intro hp m hm
    rw [← hms] at hm
    obtain ⟨p, hp', rfl⟩ := List.mem_map.mp hm
    exact hp p hp'
  · intro hm p hp
    exact hm p.2 (by rw [← hms]; exact List.mem_map.mpr ⟨p, hp, rfl⟩)

/-- Witness for C9 on concrete data `[10, 20, 30]` with markers
`[2, 4, 0]`: the REM segment is `[20]`, the non-REM segment `[10, 30]`,
and together they partition the data since every marker is at most 4. -/
theorem C9_segment_sleep_cycles_partition_witness :
    [(10:ℚ), 20, 30].length = [(2:ℤ), 4, 0].length ∧
    ((segment_sleep_cycles [10, 20, 30] [2, 4, 0]).rem
      = (([(10:ℚ), 20, 30].zip [(2:ℤ), 4, 0]).filter
          (fun p => p.2 == 4)).map Prod.fst
    ∧ (segment_sleep_cycles [10, 20, 30] [2, 4, 0]).non_rem
      = (([(10:ℚ), 20, 30].zip [(2:ℤ), 4, 0]).filter
          (fun p => decide (p.2 < 4))).map Prod.fst
    ∧ ((segment_sleep_cycles [10, 20, 30] [2, 4, 0]).rem.length
        + (segment_sleep_cycles [10, 20, 30] [2, 4, 0]).non_rem.length
          = [(10:ℚ), 20, 30].length
        ↔ ∀ m ∈ [(2:ℤ), 4, 0], m ≤ 4)) :=
  ⟨rfl, C9_segment_sleep_cycles_partition [10, 20, 30] [2, 4, 0] rfl⟩

/-- Python `int()` applied to a number: truncation toward zero. -/
def pyTrunc (q : ℚ) : ℤ :=
  if q < 0 then -((-q).floor) else q.floor

/-- Result dictionary of `classify_risk` (the formatted
`high_risk_probability` display string is presentation-only and
omitted). -/
structure RiskResult where
  risk_score : ℤ
  alert_level : String
  recommendation : String

/-- Embedding of `classify_risk(features, model)` from
`src/ai_analysis.py`, as a function of the probability pair
`model.predict_proba(features)[0] = (low_risk, high_risk)` the model
returns: the risk score is `int(high_risk_prob * 100)` and the alert
level is chosen by the 70/40 thresholds. -/
def classify_risk (probabilities : ℚ × ℚ) : RiskResult :=
  let high_risk_prob := probabilities.2
  let risk_score := pyTrunc (high_risk_prob * 100)
  if risk_score > 70 then
    { risk_score := risk_score, alert_level := "CRITICAL",
      recommendation := "Immediate consultation with a specialist is advised." }
  else if risk_score > 40 then
    { risk_score := risk_score, alert_level := "ELEVATED",
      recommendation := "Review sleep hygiene and consider a preventative care routine." }
  else
    { risk_score := risk_score, alert_level := "LOW",
      recommendation := "Maintain current healthy sleep patterns and check-in regularly." }

/-- Bridging the executable `Rat.floor` with the `Int.floor` of the
`FloorRing` instance on `ℚ` (they are definitionally equal). -/
lemma ratFloor_eq_intFloor (q : ℚ) : q.floor = ⌊q⌋ := rfl

/-- Claim C10: for a model whose high-risk probability `q` lies in
`[0, 1]`, `classify_risk` reports `risk_score = int(q * 100)` — the
truncation, here equal to the floor — which lies between 0 and 100, and
the alert level is CRITICAL exactly when the score exceeds 70, ELEVATED
exactly when it is in `(40, 70]`, and LOW exactly when it is at most
40. -/
theorem C10_classify_risk_levels (pLow q : ℚ) (h0 : 0 ≤ q) (h1 : q ≤ 1) :
    (classify_risk (pLow, q)).risk_score = (q * 100).floor
    ∧ 0 ≤ (classify_risk (pLow, q)).risk_score
    ∧ (classify_risk (pLow, q)).risk_score ≤ 100
    ∧ ((classify_risk (pLow, q)).alert_level = "CRITICAL"
        ↔ 70 < (classify_risk (pLow, q)).risk_score)
    ∧ ((classify_risk (pLow, q)).alert_level = "ELEVATED"
        ↔ 40 < (classify_risk (pLow, q)).risk_score
          ∧ (classify_risk (pLow, q)).risk_score ≤ 70)
    ∧ ((classify_risk (pLow, q)).alert_level = "LOW"
        ↔ (classify_risk (pLow, q)).risk_score ≤ 40) := by
  have htr : pyTrunc (q * 100) = (q * 100).floor := by
    rw [pyTrunc, if_neg]
    push_neg
    positivity
  have hge : (0:ℤ) ≤ (q * 100).floor := by
    rw [ratFloor_eq_intFloor]
    exact Int.floor_nonneg.mpr (by positivity)
  have hle : (q * 100).floor ≤ 100 := by
    rw [ratFloor_eq_intFloor]
    have h100 : (q * 100 : ℚ) ≤ 100 := by nlinarith
    calc ⌊(q * 100 : ℚ)⌋ ≤ ⌊(100 : ℚ)⌋ := Int.floor_le_floor h100
      _ = 100 := by norm_num
  rw [classify_risk]
  simp only [htr]
  by_cases h70 : 70 < (q * 100).floor
  · rw [if_pos h70]
    refine ⟨rfl, hge, hle, by simp [h70], ?_, ?_⟩
    · simp only [String.reduceEq, false_iff, not_and, not_le]
      intro _
      omega
    · simp only [String.reduceEq, false_iff, not_le]
      omega
  · rw [if_neg h70]
    by_cases h40 : 40 < (q * 100).floor
    · rw [if_pos h40]
      refine ⟨rfl, hge, hle, by simp [h70], ?_, ?_⟩
      · simp only [true_iff]
        omega
      · simp only [String.reduceEq, false_iff, not_le]
        omega
    · rw [if_neg h40]
      refine ⟨rfl, hge, hle, by simp [h70], ?_, ?_⟩
      · simp only [String.reduceEq, false_iff, not_and, not_le]
        intro h
        omega
      · simp only [true_iff]
        omega

/-- Witness for C10 at `q = 1/2`: the risk score is 50 and the alert
level is ELEVATED. -/
theorem C10_classify_risk_levels_witness :
    ((0:ℚ) ≤ 1 / 2 ∧ (1:ℚ) / 2 ≤ 1) ∧
    ((classify_risk (1 / 2, 1 / 2)).risk_score = ((1:ℚ) / 2 * 100).floor
    ∧ 0 ≤ (classify_risk (1 / 2, 1 / 2)).risk_score
    ∧ (classify_risk (1 / 2, 1 / 2)).risk_score ≤ 100
    ∧ ((classify_risk (1 / 2, 1 / 2)).alert_level = "CRITICAL"
        ↔ 70 < (classify_risk (1 / 2, 1 / 2)).risk_score)
    ∧ ((classify_risk (1 / 2, 1 / 2)).alert_level = "ELEVATED"
        ↔ 40 < (classify_risk (1 / 2, 1 / 2)).risk_score
          ∧ (classify_risk (1 / 2, 1 / 2)).risk_score ≤ 70)
    ∧ ((classify_risk (1 / 2, 1 / 2)).alert_level = "LOW"
        ↔ (classify_risk (1 / 2, 1 / 2)).risk_score ≤ 40)) :=
  ⟨⟨by norm_num, by norm_num⟩,
    C10_classify_risk_levels (1 / 2) (1 / 2) (by norm_num) (by norm_num)⟩

end NeuroSecure
